import Mathlib

/-!
Verification of the ChatCSV repository (src/main.py and
src/normalize_csv_images.py) against its natural-language specification.

The Python sources are shallowly embedded as executable Lean definitions:
pure functions become Lean functions on `String` / `List Char` / `List`,
the asyncio append path becomes an explicit interleaving step relation on
a state record, and fallible code returns `Option`.  Definition names
follow the source where Lean's lexer allows it (the leading underscore of
Python's private helpers is dropped).
-/

namespace ChatCSV

/-! ## Embedding of src/normalize_csv_images.py

The regular-expression substitutions of `IMAGE_PATTERNS` are embedded as
deterministic matchers on `List Char`.  Each matcher, applied at a
position, returns the length of the match Python's backtracking engine
finds at that position (`None` when there is no match there); the
patterns involved are simple enough that this length is uniquely
determined, as justified in the comments of each matcher. -/

/-- The characters Python's `\s` class matches (ASCII range). -/
def isPyWs (c : Char) : Bool :=
  c = ' ' || c = '\t' || c = '\n' || c = '\x0d' || c = '\x0b' || c = '\x0c'

/-- A single-quote character, written by code point to keep the file free
of quote literals. -/
def squote : Char := Char.ofNat 39

/-- An opening curly brace, by code point. -/
def lbrace : Char := Char.ofNat 123

/-- A closing curly brace, by code point. -/
def rbrace : Char := Char.ofNat 125

/-- The two quote characters the patterns accept. -/
def isQuoteCh (c : Char) : Bool := c = '"' || c = squote

/-- Case-insensitive literal match: `dropCI lit cs` returns the rest of
`cs` after a prefix matching `lit` (given lowercase), comparing
lowercased characters, as `re.IGNORECASE` does for the ASCII literals of
the patterns. -/
def dropCI : List Char → List Char → Option (List Char)
  | [], cs => some cs
  | _ :: _, [] => none
  | l :: ls, c :: cs => if c.toLower = l then dropCI ls cs else none

/-- The replacement text every pattern substitutes. -/
def placeholderChars : List Char := "image".data

/-- Matcher for the first pattern, `Image\([^)]*\)` (IGNORECASE, DOTALL).
Since `[^)]*` cannot cross a closing parenthesis, the unique match at a
position is the literal `image(` followed by everything up to and
including the first closing parenthesis. -/
def matchImageCall (cs : List Char) : Option Nat :=
  match dropCI "image(".data cs with
  | none => none
  | some rest =>
    match rest.findIdx? (fun c => c = ')') with
    | none => none
    | some i => some ("image(".data.length + i + 1)

/-- Matcher for the second pattern, `\[CQ:image[^\]]*\]` (IGNORECASE,
DOTALL): the literal `[CQ:image` followed by everything up to and
including the first closing square bracket. -/
def matchCQImage (cs : List Char) : Option Nat :=
  match dropCI "[cq:image".data cs with
  | none => none
  | some rest =>
    match rest.findIdx? (fun c => c = ']') with
    | none => none
    | some i => some ("[cq:image".data.length + i + 1)

/-- The inner part of the third pattern:
`['\"]type['\"]\s*:\s*['\"]image['\"]` tested as a prefix.  The `\s*`
runs are greedy over non-colon whitespace, so the match is
deterministic. -/
def midTypeImage (xs : List Char) : Bool :=
  match xs with
  | [] => false
  | q :: r1 =>
    isQuoteCh q &&
    (match dropCI "type".data r1 with
     | some (q2 :: r3) =>
       isQuoteCh q2 &&
       (match r3.dropWhile isPyWs with
        | ':' :: r5 =>
          (match r5.dropWhile isPyWs with
           | q3 :: r7 =>
             isQuoteCh q3 &&
             (match dropCI "image".data r7 with
              | some (q4 :: _) => isQuoteCh q4
              | _ => false)
           | [] => false)
        | _ => false)
     | _ => false)

/-- Matcher for the third pattern,
`\{[^{}]*['\"]type['\"]\s*:\s*['\"]image['\"][^{}]*\}` (IGNORECASE,
DOTALL).  The two `[^{}]*` runs cannot cross a brace, so a match from an
opening brace always extends over the maximal brace-free span to the
first following brace, which must be a closing one; the span length is
independent of where the inner `type : image` part sits, so the match
length is `span + 2` whenever the inner part occurs anywhere in the
span. -/
def matchJsonImage (cs : List Char) : Option Nat :=
  match cs with
  | [] => none
  | c :: rest =>
    if c = lbrace then
      let span := rest.takeWhile (fun d => !(d = lbrace || d = rbrace))
      match rest.drop span.length with
      | d :: _ =>
        if d = rbrace then
          if (List.range (span.length + 1)).any (fun p => midTypeImage (span.drop p)) then
            some (span.length + 2)
          else none
        else none
      | [] => none
    else none

/-- The extension alternation of the fourth pattern, in the source's
order. -/
def urlExts : List (List Char) :=
  [".jpg".data, ".jpeg".data, ".png".data, ".gif".data, ".webp".data]

/-- The characters that end the `[^\s\"\']+` run of the URL pattern. -/
def isUrlStop (c : Char) : Bool := isPyWs c || c = '"' || c = squote

/-- Matcher for the fourth pattern,
`https?://[^\s\"\']+(?:\.jpg|\.jpeg|\.png|\.gif|\.webp)(?:\?[^\s\"\'\)]*)?`
(IGNORECASE).  The greedy `+` takes the longest body before an extension
matches, so candidate body lengths are tried from the full stop-free run
downwards; the extension alternation is tried in source order, and the
optional query part never fails, so the first success wins exactly as in
the backtracking engine. -/
def matchImageUrl (cs : List Char) : Option Nat :=
  match dropCI "http".data cs with
  | none => none
  | some r1 =>
    let pref : Option (Nat × List Char) :=
      match r1 with
      | c :: rest =>
        if c.toLower = 's' then
          match dropCI "://".data rest with
          | some r => some (8, r)
          | none => none
        else
          match dropCI "://".data r1 with
          | some r => some (7, r)
          | none => none
      | [] => none
    match pref with
    | none => none
    | some (plen, r2) =>
      let tlen := (r2.takeWhile (fun c => !isUrlStop c)).length
      let cands := (List.range tlen).reverse.map (fun j => j + 1)
      match cands.findSome? (fun k =>
        (urlExts.findSome? (fun e =>
          match dropCI e (r2.drop k) with
          | some _ => some e.length
          | none => none)).map (fun L => (k, L))) with
      | none => none
      | some (k, L) =>
        let r3 := r2.drop (k + L)
        let qlen :=
          match r3 with
          | c :: rest =>
            if c = '?' then
              1 + (rest.takeWhile (fun d => !(isUrlStop d || d = ')'))).length
            else 0
          | [] => 0
        some (plen + k + L + qlen)

/-- One `pattern.sub("image", text)` pass: scan left to right, replace
each (non-overlapping, leftmost) match by the placeholder and continue
after it, otherwise keep the character and move on.  The fuel argument
starts at the text length; every step consumes at least one character
and one unit of fuel, so the fuel never runs out before the text does. -/
def subPatGo (m : List Char → Option Nat) : Nat → List Char → List Char
  | 0, cs => cs
  | _ + 1, [] => []
  | fuel + 1, c :: cs =>
    match m (c :: cs) with
    | some L => placeholderChars ++ subPatGo m fuel ((c :: cs).drop (max L 1))
    | none => c :: subPatGo m fuel cs

/-- `pattern.sub("image", text)` for one embedded pattern. -/
def patternSub (m : List Char → Option Nat) (cs : List Char) : List Char :=
  subPatGo m cs.length cs

/-- Embedding of `normalize_cell`: an empty cell is returned unchanged,
otherwise the four patterns of `IMAGE_PATTERNS` are substituted in
order, each over the whole current text. -/
def normalize_cell (value : String) : String :=
  if value = "" then value
  else
    let t1 := patternSub matchImageCall value.data
    let t2 := patternSub matchCQImage t1
    let t3 := patternSub matchJsonImage t2
    let t4 := patternSub matchImageUrl t3
    ⟨t4⟩

/-- The configured drop set `COLUMNS_TO_DROP`. -/
def COLUMNS_TO_DROP : List String :=
  ["timestamp_iso", "timestamp_unix", "platform", "message_type", "self_id",
   "session_id", "sender_repr", "message_components", "raw_message"]

/-- The `drop_indices` set comprehension of `drop_columns`: the header
positions whose name is in the drop set. -/
def dropIndicesOf (header : List String) (target_columns : List String) : List Nat :=
  (List.range header.length).filter
    (fun idx => decide (header.getD idx "" ∈ target_columns))

/-- The `kept_indices` list comprehension of `drop_columns`. -/
def keptIndicesOf (header : List String) (target_columns : List String) : List Nat :=
  (List.range header.length).filter
    (fun idx => decide (idx ∉ dropIndicesOf header target_columns))

/-- The per-row list comprehension of `drop_columns`: the kept cells of a
row, an index beyond a short row's length being skipped. -/
def pruneRow (header : List String) (target_columns : List String)
    (row : List String) : List String :=
  (keptIndicesOf header target_columns).filterMap (fun idx => row.get? idx)

/-- Embedding of `drop_columns`: indices of header names in the drop set
are removed from every row (header included); with nothing to drop the
input is returned unchanged. -/
def drop_columns (rows : List (List String)) (target_columns : List String) :
    List (List String) :=
  match rows with
  | [] => []
  | header :: rest =>
    if dropIndicesOf header target_columns = [] then header :: rest
    else (header :: rest).map (pruneRow header target_columns)

/-- Embedding of the row transformation of `normalize_csv`: every cell is
normalized, then the configured columns are dropped.  The CSV file
reading and the atomic temporary-file replacement around it are I/O and
are abstracted to this pure transform on the list of rows. -/
def normalize_csv_rows (rows : List (List String)) : List (List String) :=
  drop_columns (rows.map (fun row => row.map normalize_cell)) COLUMNS_TO_DROP

/-! ## Embedding of the pure parts of src/main.py -/

/-- The `_csv_headers` column schema of `ChatCSVLogger`. -/
def csvHeaders : List String :=
  ["timestamp_iso", "platform", "session_id", "message_id",
   "group_id", "sender_id", "sender_name", "message_text"]

/-- The characters Python's `\w` class matches, restricted to ASCII
(the identifiers the plugin handles); `_` is a word character. -/
def isWordChar (c : Char) : Bool := c.isAlphanum || c = '_'

/-- A backslash, by code point. -/
def backslashChar : Char := Char.ofNat 92

/-- Python's `str.strip()`: whitespace removed from both ends. -/
def stripChars (cs : List Char) : List Char :=
  ((cs.dropWhile isPyWs).reverse.dropWhile isPyWs).reverse

/-- Embedding of `_sanitize_component`: the identifier is rendered as a
string (a falsy value rendering as the empty string, which strips to
empty), stripped, and, when non-empty, every character outside `[\w.-]`
is replaced by an underscore and the result truncated to 100
characters. -/
def _sanitize_component (value : String) : String :=
  if stripChars value.data = [] then ""
  else ⟨((stripChars value.data).map
    (fun c => if isWordChar c || c = '.' || c = '-' then c else '_')).take 100⟩

/-- Python's `a or b` on strings: `b` when `a` is empty (falsy). -/
def pyOr (a b : String) : String := if a = "" then b else a

/-- Embedding of the path computed by `_resolve_csv_path`, as the list of
path components below the plugin's data directory (the
`_ensure_csv_ready` call it performs afterwards is part of the append
state machine below).  A truthy (non-empty) `group_id` selects the
groups branch; otherwise the private branch falls back across
`session_id`, `sender_id` and the literal `private_unknown`. -/
def _resolve_csv_path (group_id session_id sender_id : String) : List String :=
  if group_id ≠ "" then
    ["chatcsv", "groups", _sanitize_component group_id, "chat_history.csv"]
  else
    ["chatcsv", "privates",
      pyOr (pyOr (_sanitize_component session_id) (_sanitize_component sender_id))
        "private_unknown",
      "chat_history.csv"]

/-- The value passed to `_to_iso`: `event.timestamp` may be absent
(`None`), a numeric value (modelled by its integral seconds; the
fractional part plays no role in the error behaviour at issue), or a
non-numeric value on which `float()` raises. -/
inductive TsValue where
  | pyNone : TsValue
  | num : Int → TsValue
  | nonNumeric : TsValue

/-- `float(timestamp)`: `none` models the `TypeError` or `ValueError`
the conversion raises on `None` or a non-numeric value — exactly the
exceptions `_to_iso`'s `except` clause catches. -/
def pyFloat : TsValue → Option Int
  | .pyNone => none
  | .nonNumeric => none
  | .num i => some i

/-- The smallest timestamp `datetime.fromtimestamp(_, tz=utc)` accepts:
0001-01-01T00:00:00 UTC. -/
def MIN_TS : Int := -62135596800

/-- The largest accepted timestamp: 9999-12-31T23:59:59 UTC. -/
def MAX_TS : Int := 253402300799

/-- Two-digit zero-padded rendering. -/
def pad2 (n : Nat) : String :=
  if n < 10 then "0" ++ toString n else toString n

/-- Four-digit zero-padded rendering (years). -/
def pad4 (n : Nat) : String :=
  if n < 10 then "000" ++ toString n
  else if n < 100 then "00" ++ toString n
  else if n < 1000 then "0" ++ toString n
  else toString n

/-- Gregorian date from a day count since 0001-03-01, by the standard
era decomposition (all quantities non-negative). -/
def civilFromDays (days : Nat) : Nat × Nat × Nat :=
  let era := days / 146097
  let doe := days % 146097
  let yoe := (doe - doe / 1460 + doe / 36524 - doe / 146096) / 365
  let y := yoe + era * 400
  let doy := doe - (365 * yoe + yoe / 4 - yoe / 100)
  let mp := (5 * doy + 2) / 153
  let d := doy - (153 * mp + 2) / 5 + 1
  let m := if mp < 10 then mp + 3 else mp - 9
  (if m ≤ 2 then y + 1 else y, m, d)

/-- The ISO-8601 UTC rendering
`datetime.fromtimestamp(ts, tz=timezone.utc).isoformat()` produces for a
whole-second, in-range timestamp: `YYYY-MM-DDTHH:MM:SS+00:00`.  The
timestamp is shifted by `-MIN_TS` (a whole number of days) so the civil
conversion runs on naturals. -/
def isoOfTimestamp (ts : Int) : String :=
  let t := (ts - MIN_TS).toNat
  let days := t / 86400
  let sod := t % 86400
  let ymd := civilFromDays (days + 306)
  pad4 ymd.1 ++ "-" ++ pad2 ymd.2.1 ++ "-" ++ pad2 ymd.2.2 ++ "T" ++
    pad2 (sod / 3600) ++ ":" ++ pad2 (sod % 3600 / 60) ++ ":" ++ pad2 (sod % 60) ++
    "+00:00"

/-- `datetime.fromtimestamp(ts, tz=utc).isoformat()`: `none` models the
error the conversion raises for a timestamp outside the representable
datetime range (year below 1 or above 9999). -/
def fromtimestampIso (ts : Int) : Option String :=
  if MIN_TS ≤ ts ∧ ts ≤ MAX_TS then some (isoOfTimestamp ts) else none

/-- Embedding of `_to_iso`: `float()` failures (`TypeError`,
`ValueError`) are caught and the current time is rendered instead; the
subsequent `fromtimestamp` conversion is outside the `try`, so its
failure propagates (`none`).  `now` is the current UTC time in whole
seconds, passed explicitly. -/
def _to_iso (timestamp : TsValue) (now : Int) : Option String :=
  match pyFloat timestamp with
  | none => some (isoOfTimestamp now)
  | some ts => fromtimestampIso ts

/-! ## Embedding of the file lock registry of src/main.py

The whole body of `_get_file_lock` runs under `_global_init_lock` and
contains no suspension point (dictionary lookup, `asyncio.Lock()`
construction and dictionary insertion are synchronous), so concurrent
callers execute it as one atomic step each; every interleaving of
concurrent callers is therefore some sequence of these atomic calls.
Lock objects are modelled by their creation rank. -/

/-- The `_file_locks` dictionary and the identity of the next lock object
`asyncio.Lock()` would allocate. -/
structure LockRegistry where
  locks : List (String × Nat)
  nextId : Nat

/-- Dictionary lookup `self._file_locks.get(file_path)`. -/
def lookupLock (path : String) : List (String × Nat) → Option Nat
  | [] => none
  | (p, l) :: rest => if p = path then some l else lookupLock path rest

/-- Embedding of `_get_file_lock` as one atomic step: return the
registered lock, or create a fresh one and register it. -/
def _get_file_lock (st : LockRegistry) (path : String) : Nat × LockRegistry :=
  match lookupLock path st.locks with
  | some l => (l, st)
  | none => (st.nextId, ⟨(path, st.nextId) :: st.locks, st.nextId + 1⟩)

/-- A sequence of `_get_file_lock` calls from a registry state. -/
def runLockCalls (st : LockRegistry) (calls : List String) : LockRegistry :=
  calls.foldl (fun s p => (_get_file_lock s p).2) st

/-- The registry as the plugin constructs it: empty. -/
def initRegistry : LockRegistry := ⟨[], 0⟩

/-- The lock a call for `path` returns in a registry state. -/
def lockResult (st : LockRegistry) (path : String) : Nat :=
  (_get_file_lock st path).1

/-- The number of registered locks for one path. -/
def lockCount (path : String) (st : LockRegistry) : Nat :=
  st.locks.countP (fun e => decide (e.1 = path))

/-! ## The append path of src/main.py as an interleaving step relation

`record_message` for one event resolves the CSV path (`_resolve_csv_path`,
which runs `_ensure_csv_ready` in a worker thread: an existence check
followed, when the file is absent, by opening the file in write mode —
truncating it — and writing the header row) and then calls `_append_row`,
which acquires the per-path lock from the registry and appends the row.
For `n` concurrent appends addressed to the same key, each task `i` runs
the program counter below; the existence check and the create-and-write-
header are separately scheduled steps because they run in a thread pool
thread that interleaves freely with the other tasks' steps (the spec's
section 5 names the header-check and file creation as suspension
points).  The locked write is one atomic step: the per-path lock is held
for the whole of `_write_row_sync`.

Two granularities are used.  The coarse model (`step`) treats the
create-and-write-header of `_ensure_csv_ready` as one transition; it is
used for the claims proved from `initReady`, whose runs never reach that
transition, and for the row-losing trace, whose create steps happen to
run uninterleaved so the coarse transition matches the source.  The
refined model (`fstep`, further below) splits the creation into the
truncating `open(mode="w")` — which puts an empty, headerless file on
disk at once — and the flush of the buffered header line at the close of
the `with` block; this exposes the real intermediate state in which the
file exists without a header and can receive a concurrent data row
first.

Program counter of task `i` in the coarse model:
  0 = about to run the `os.path.exists` check of `_ensure_csv_ready`;
  1 = saw the file absent, about to create it and write the header
      (`open(mode="w")` truncates whatever is there by then);
  2 = about to acquire the per-path lock in `_append_row`;
  3 = holding the lock, about to append its row;
  4 = row appended, about to release the lock;
  5 = done. -/

/-- The shared state of `n` append tasks for one key: the target file
(`none` while it does not exist), the holder of the per-path lock, each
task's program counter, and the ghost list of tasks whose append step
has executed, in execution order. -/
structure AppendState (n : Nat) where
  file : Option (List (List String))
  lockHeld : Option (Fin n)
  pc : Fin n → Nat
  written : List (Fin n)

/-- Pointwise update of a program-counter map. -/
def upd {n : Nat} (f : Fin n → Nat) (i : Fin n) (v : Nat) : Fin n → Nat :=
  fun j => if j = i then v else f j

/-- One scheduled step of task `i`: the enabled transition of its program
counter, the identity when the task is blocked on the lock or done. -/
def step {n : Nat} (rowOf : Fin n → List String) (s : AppendState n) (i : Fin n) :
    AppendState n :=
  if s.pc i = 0 then
    match s.file with
    | none => { s with pc := upd s.pc i 1 }
    | some _ => { s with pc := upd s.pc i 2 }
  else if s.pc i = 1 then
    { s with file := some [csvHeaders], pc := upd s.pc i 2 }
  else if s.pc i = 2 then
    match s.lockHeld with
    | none => { s with lockHeld := some i, pc := upd s.pc i 3 }
    | some _ => s
  else if s.pc i = 3 then
    { s with file := some ((s.file.getD []) ++ [rowOf i]),
             written := s.written ++ [i],
             pc := upd s.pc i 4 }
  else if s.pc i = 4 then
    { s with lockHeld := none, pc := upd s.pc i 5 }
  else s

/-- Run a schedule: the sequence of task ids given control, in order. -/
def run {n : Nat} (rowOf : Fin n → List String) (tr : List (Fin n))
    (s : AppendState n) : AppendState n :=
  tr.foldl (step rowOf) s

/-- The initial state with the target file not yet existing. -/
def initNone (n : Nat) : AppendState n := ⟨none, none, fun _ => 0, []⟩

/-- The initial state with the target file already created and holding
its header row (the state after any one append has fully completed
before the `n` tasks start). -/
def initReady (n : Nat) : AppendState n := ⟨some [csvHeaders], none, fun _ => 0, []⟩

/-- Task `i` is in the writer critical section: it holds the per-path
lock, between acquisition and release. -/
def inCriticalSection {n : Nat} (s : AppendState n) (i : Fin n) : Prop :=
  s.pc i = 3 ∨ s.pc i = 4

/-- The outcome the spec promises for `n` appends: the file is the
header followed by exactly `n` data rows, each task's row appearing
exactly once. -/
def appendOutcome {n : Nat} (rowOf : Fin n → List String) (s : AppendState n) : Prop :=
  ∃ dataRows, s.file = some (csvHeaders :: dataRows) ∧ dataRows.length = n ∧
    ∀ i, dataRows.count (rowOf i) = 1

/-- The invariant of runs from `initReady`: the file exists and consists
of the header followed by the rows of the tasks recorded in `written`
(in order), `written` has no duplicates and holds exactly the tasks past
their append step, no task is ever at the create-header step, and the
lock is held exactly by a task between acquisition and release. -/
structure InvReady {n : Nat} (rowOf : Fin n → List String) (s : AppendState n) : Prop where
  no_create : ∀ i, s.pc i ≠ 1
  file_eq : s.file = some (csvHeaders :: s.written.map rowOf)
  nodup : s.written.Nodup
  mem_iff : ∀ i, i ∈ s.written ↔ 4 ≤ s.pc i
  lock_iff : ∀ i, (s.pc i = 3 ∨ s.pc i = 4) ↔ s.lockHeld = some i

/-! ### The refined model of the append path

The refined step relation makes the two halves of `_ensure_csv_ready`'s
creation separately schedulable, as they are in the source:
`open(file_path, mode="w")` creates (or truncates to) an empty file on
disk immediately, while `writer.writerow(self._csv_headers)` goes to the
text stream's buffer and reaches the disk only when the `with` block
closes the file.  Between the two, the file exists with no header, a
concurrent task's `os.path.exists` check returns true so that task skips
creation, and nothing stops its locked append from writing a data row
into the headerless file — the creator holds no lock during any of
this.

Program counter of task `i` in the refined model:
  0 = about to run the `os.path.exists` check;
  1 = saw the file absent, about to `open(mode="w")` (file becomes
      empty on disk, header still buffered);
  2 = about to close the handle, flushing the buffered header line;
  3 = about to acquire the per-path lock in `_append_row`;
  4 = holding the lock, about to append its row;
  5 = row appended, about to release the lock;
  6 = done. -/

/-- The shared state of `n` append tasks in the refined model. -/
structure FState (n : Nat) where
  file : Option (List (List String))
  lockHeld : Option (Fin n)
  pc : Fin n → Nat

/-- The on-disk content after the buffered header line is flushed
through the mode-`w` handle, whose position is offset zero: on the empty
file the creator just made, the content becomes exactly the header line.
When a concurrent append slipped a data row in first, the header bytes
overwrite the beginning of that row — the row is destroyed and the
header line stands in its place (byte-for-byte so when the two lines
have equal length; the general byte-boundary fusing is below this
model's row granularity).  No theorem in this file evaluates the
overwrite case: the refined counterexample stops at the state before the
flush, and the serialized theorem only ever flushes the empty file. -/
def flushHeader (rows : List (List String)) : List (List String) :=
  match rows with
  | [] => [csvHeaders]
  | _ :: rest => csvHeaders :: rest

/-- One scheduled step of task `i` in the refined model. -/
def fstep {n : Nat} (rowOf : Fin n → List String) (s : FState n) (i : Fin n) :
    FState n :=
  if s.pc i = 0 then
    match s.file with
    | none => { s with pc := upd s.pc i 1 }
    | some _ => { s with pc := upd s.pc i 3 }
  else if s.pc i = 1 then
    { s with file := some [], pc := upd s.pc i 2 }
  else if s.pc i = 2 then
    { s with file := some (flushHeader (s.file.getD [])), pc := upd s.pc i 3 }
  else if s.pc i = 3 then
    match s.lockHeld with
    | none => { s with lockHeld := some i, pc := upd s.pc i 4 }
    | some _ => s
  else if s.pc i = 4 then
    { s with file := some ((s.file.getD []) ++ [rowOf i]), pc := upd s.pc i 5 }
  else if s.pc i = 5 then
    { s with lockHeld := none, pc := upd s.pc i 6 }
  else s

/-- Run a schedule in the refined model. -/
def frun {n : Nat} (rowOf : Fin n → List String) (tr : List (Fin n))
    (s : FState n) : FState n :=
  tr.foldl (fstep rowOf) s

/-- The refined initial state: the target file does not exist. -/
def fInitNone (n : Nat) : FState n := ⟨none, none, fun _ => 0⟩

/-- The racing schedule on the refined model: task 0 runs its existence
check and its truncating `open(mode="w")`; task 1's existence check then
sees the (empty, headerless) file, so task 1 skips creation, acquires
the free per-path lock, appends its data row and releases — all before
task 0 ever flushes its buffered header line. -/
def fSchedRace : List (Fin 2) := [0, 0, 1, 1, 1, 1]

/-- Two tasks with distinct rows, for the concrete schedules. -/
def rowsPair : Fin 2 → List String := fun i => if i = 0 then ["r0"] else ["r1"]

/-- One task, for the concrete schedules. -/
def rowsOne : Fin 1 → List String := fun _ => ["r0"]

/-- A fully serialized schedule of two appends on an existing file:
task 0 checks, acquires, appends, releases; then task 1 does. -/
def schedPair : List (Fin 2) := [0, 0, 0, 0, 1, 1, 1, 1]

/-- The row-losing interleaving: both tasks pass the existence check
while the file is absent; task 0 creates the file, appends and releases;
only then does task 1 execute its deferred create-and-write-header,
truncating the file and erasing task 0's row, before appending its
own. -/
def schedLost : List (Fin 2) := [0, 1, 0, 0, 0, 0, 1, 1, 1, 1]

/-! ## The Archive Coordinator, modelled from the spec (section 4.5)

Modelled from the spec: no archive coordinator exists in the
repository's source files; the spec describes `request_archive()` as a
pending flag plus a dedicated archive lock with a
debounce-with-trailing-coalescing loop, and that protocol is embedded
here from the spec's words alone. -/

/-- Modelled from the spec: the Archive Coordinator's shared state — the
boolean pending flag, whether a build is in flight (the archive lock is
held), and how many builds have completed. -/
structure CoordState where
  pending : Bool
  building : Bool
  builds : Nat

/-- An event of the coordinator: one `request_archive()` call, or the
completion of the build currently in flight. -/
inductive CoordEvent where
  | trigger : CoordEvent
  | finish : CoordEvent

/-- Modelled from the spec: `trigger` sets pending and returns at once
when a build is in flight, otherwise takes the archive lock, clears
pending and starts a build; `finish` completes the in-flight build and
re-checks pending — set again means clear it and build once more,
otherwise the lock is released. -/
def coordStep : CoordState → CoordEvent → CoordState
  | s, .trigger =>
    if s.building then { s with pending := true }
    else { pending := false, building := true, builds := s.builds }
  | s, .finish =>
    if s.building then
      if s.pending then { pending := false, building := true, builds := s.builds + 1 }
      else { pending := false, building := false, builds := s.builds + 1 }
    else s

/-- Run a sequence of coordinator events. -/
def runCoord (evs : List CoordEvent) (s : CoordState) : CoordState :=
  evs.foldl coordStep s

/-- A build already in flight, nothing pending, no completed build yet. -/
def inFlight : CoordState := ⟨false, true, 0⟩

/-- The scenario of the claim: `M` triggers arrive while the build is in
flight, then the builder runs through `j` completion events. -/
def coordRun (M j : Nat) : CoordState :=
  runCoord (List.replicate M .trigger ++ List.replicate j .finish) inFlight

/-! ## Lemmas about the lock registry -/

theorem lookupLock_none_countP (path : String) (locks : List (String × Nat))
    (h : lookupLock path locks = none) :
    locks.countP (fun e => decide (e.1 = path)) = 0 := by
  induction locks with
  | nil => rfl
  | cons e rest ih =>
    obtain ⟨p, l⟩ := e
    rw [lookupLock] at h
    by_cases hp : p = path
    · rw [if_pos hp] at h; exact absurd h (by simp)
    · rw [if_neg hp] at h
      rw [List.countP_cons_of_neg _ _ (by simpa using hp)]
      exact ih h

theorem lookupLock_some_countP (path : String) (locks : List (String × Nat)) (l : Nat)
    (h : lookupLock path locks = some l) :
    1 ≤ locks.countP (fun e => decide (e.1 = path)) := by
  induction locks with
  | nil => exact absurd h (by simp [lookupLock])
  | cons e rest ih =>
    obtain ⟨p, l2⟩ := e
    rw [lookupLock] at h
    by_cases hp : p = path
    · rw [List.countP_cons_of_pos _ _ (by simpa using hp)]
      omega
    · rw [if_neg hp] at h
      rw [List.countP_cons_of_neg _ _ (by simpa using hp)]
      exact ih h

theorem get_file_lock_keeps (st : LockRegistry) (q p : String) (l : Nat)
    (h : lookupLock p st.locks = some l) :
    lookupLock p ((_get_file_lock st q).2).locks = some l := by
  rw [_get_file_lock]
  cases hq : lookupLock q st.locks with
  | some l2 => exact h
  | none =>
    have hpq : q ≠ p := by
      rintro rfl
      rw [h] at hq
      exact absurd hq (by simp)
    show lookupLock p ((q, st.nextId) :: st.locks) = some l
    rw [lookupLock, if_neg hpq]
    exact h

theorem runLockCalls_keeps (qs : List String) (st : LockRegistry) (p : String) (l : Nat)
    (h : lookupLock p st.locks = some l) :
    lookupLock p (runLockCalls st qs).locks = some l := by
  induction qs generalizing st with
  | nil => exact h
  | cons q rest ih => exact ih _ (get_file_lock_keeps st q p l h)

theorem get_file_lock_registers (st : LockRegistry) (p : String) :
    lookupLock p ((_get_file_lock st p).2).locks = some (lockResult st p) := by
  rw [_get_file_lock, lockResult, _get_file_lock]
  cases hq : lookupLock p st.locks with
  | some l => exact hq
  | none =>
    show lookupLock p ((p, st.nextId) :: st.locks) = some st.nextId
    rw [lookupLock, if_pos rfl]

theorem get_file_lock_count_le (st : LockRegistry) (q p : String)
    (h : lockCount p st ≤ 1) : lockCount p ((_get_file_lock st q).2) ≤ 1 := by
  rw [lockCount, _get_file_lock] at *
  cases hq : lookupLock q st.locks with
  | some l => exact h
  | none =>
    show ((q, st.nextId) :: st.locks).countP (fun e => decide (e.1 = p)) ≤ 1
    by_cases hpq : q = p
    · subst hpq
      rw [List.countP_cons_of_pos _ _ (by simp)]
      rw [lookupLock_none_countP q st.locks hq]
    · rw [List.countP_cons_of_neg _ _ (by simpa using hpq)]
      exact h

theorem runLockCalls_count_le (calls : List String) (st : LockRegistry) (p : String)
    (h : lockCount p st ≤ 1) : lockCount p (runLockCalls st calls) ≤ 1 := by
  induction calls generalizing st with
  | nil => exact h
  | cons q rest ih => exact ih _ (get_file_lock_count_le st q p h)

/-! ## Lemmas about the normalizer -/

theorem length_filterMap_getQ (xs : List String) (l : List Nat)
    (h : ∀ i ∈ l, i < xs.length) :
    (l.filterMap (fun idx => xs.get? idx)).length = l.length := by
  induction l with
  | nil => rfl
  | cons i t ih =>
    have hi : i < xs.length := h i (List.mem_cons_self i t)
    have ha : xs[i]? = some xs[i] := List.getElem?_eq_getElem hi
    have ht : ∀ j ∈ t, j < xs.length := fun j hj => h j (List.mem_cons_of_mem _ hj)
    simp only [List.filterMap_cons, List.get?_eq_getElem?, ha, List.length_cons]
    rw [show (List.filterMap (fun idx => xs[idx]?) t)
        = List.filterMap (fun idx => xs.get? idx) t by
      simp [List.get?_eq_getElem?]]
    rw [ih ht]

theorem length_filter_not {α} (p : α → Bool) (l : List α) :
    (l.filter (fun a => !p a)).length = l.length - (l.filter p).length := by
  induction l with
  | nil => rfl
  | cons a t ih =>
    by_cases hp : p a = true
    · simp [List.filter_cons, hp, ih,
        Nat.succ_sub_one]
    · have hp2 : p a = false := by simpa using hp
      have hle : (t.filter p).length ≤ t.length := List.length_filter_le _ _
      simp [List.filter_cons, hp2, ih, Nat.succ_sub hle]

theorem dropIndicesOf_length (header target : List String) :
    (dropIndicesOf header target).length =
      (header.filter (fun name => decide (name ∈ target))).length := by
  induction header with
  | nil => rfl
  | cons h t ih =>
    have : dropIndicesOf (h :: t) target =
        ((List.range (t.length + 1)).filter
          (fun idx => decide ((h :: t).getD idx "" ∈ target))) := rfl
    rw [this, List.range_succ_eq_map, List.filter_cons, List.filter_map]
    by_cases hh : h ∈ target
    · simp only [List.getD_cons_zero, hh, decide_True]
      have hcomp : ((fun idx => decide ((h :: t).getD idx "" ∈ target)) ∘ Nat.succ)
          = fun idx => decide (t.getD idx "" ∈ target) := by
        funext idx; simp [Function.comp, List.getD_cons_succ]
      rw [hcomp]
      simp [List.filter_cons, hh, ← ih, dropIndicesOf]
    · simp only [List.getD_cons_zero, hh, decide_False]
      have hcomp : ((fun idx => decide ((h :: t).getD idx "" ∈ target)) ∘ Nat.succ)
          = fun idx => decide (t.getD idx "" ∈ target) := by
        funext idx; simp [Function.comp, List.getD_cons_succ]
      rw [hcomp]
      simp [List.filter_cons, hh, ← ih, dropIndicesOf]

theorem keptIndicesOf_length (header target : List String) :
    (keptIndicesOf header target).length =
      header.length - (dropIndicesOf header target).length := by
  have hcong : keptIndicesOf header target =
      (List.range header.length).filter
        (fun idx => !(decide (header.getD idx "" ∈ target))) := by
    apply List.filter_congr
    intro i hi
    have : i ∈ dropIndicesOf header target ↔ decide (header.getD i "" ∈ target) = true := by
      constructor
      · intro hmem
        exact (List.mem_filter.mp hmem).2
      · intro hp
        exact List.mem_filter.mpr ⟨hi, hp⟩
    by_cases hp : decide (header.getD i "" ∈ target) = true
    · simp [this, hp]
    · simp [this, hp]
  rw [hcong, length_filter_not, List.length_range]
  rfl

theorem pruneRow_header_length (header target : List String) :
    (pruneRow header target header).length =
      header.length - (dropIndicesOf header target).length := by
  rw [pruneRow, length_filterMap_getQ, keptIndicesOf_length]
  intro i hi
  have := (List.mem_filter.mp hi).1
  simpa using List.mem_range.mp this

theorem mem_header_getD (header : List String) (name : String)
    (h : name ∈ header) : ∃ idx, idx < header.length ∧ header.getD idx "" = name := by
  obtain ⟨⟨idx, hidx⟩, hget⟩ := List.mem_iff_get.mp h
  exact ⟨idx, hidx, by rw [List.getD_eq_get _ _ hidx, hget]⟩

theorem pruneRow_header_not_mem (header target : List String) :
    ∀ name ∈ pruneRow header target header, name ∉ target := by
  intro name hmem htgt
  obtain ⟨idx, hidx, hsome⟩ := List.mem_filterMap.mp hmem
  have hkept := List.mem_filter.mp hidx
  have hsome2 : header[idx]? = some name := by
    simpa [List.get?_eq_getElem?] using hsome
  have hname : header.getD idx "" = name := by
    simp [List.getD_eq_getElem?_getD, hsome2]
  have hdrop : idx ∈ dropIndicesOf header target :=
    List.mem_filter.mpr ⟨hkept.1, by rw [hname]; exact decide_eq_true htgt⟩
  exact (of_decide_eq_true hkept.2) hdrop

theorem filter_length_eq_inter_card (header target : List String)
    (hnd : header.Nodup) :
    (header.filter (fun name => decide (name ∈ target))).length =
      (header.toFinset ∩ target.toFinset).card := by
  have h1 : (header.filter (fun name => decide (name ∈ target))).toFinset =
      header.toFinset.filter (fun name => decide (name ∈ target) = true) :=
    List.toFinset_filter _ _
  have h2 : header.toFinset.filter (fun name => decide (name ∈ target) = true) =
      header.toFinset.filter (fun name => name ∈ target.toFinset) := by
    apply Finset.filter_congr
    intro x _
    simp [List.mem_toFinset]
  have h3 : header.toFinset.filter (fun name => name ∈ target.toFinset) =
      header.toFinset ∩ target.toFinset := Finset.filter_mem_eq_inter
  have h4 : (header.filter (fun name => decide (name ∈ target))).toFinset.card =
      (header.filter (fun name => decide (name ∈ target))).length :=
    List.toFinset_card_of_nodup (hnd.filter _)
  rw [← h4, h1, h2, h3]

theorem drop_columns_length (rows : List (List String)) (target : List String) :
    (drop_columns rows target).length = rows.length := by
  match rows with
  | [] => rfl
  | header :: rest =>
    rw [drop_columns]
    split
    · rfl
    · rw [List.length_map]

theorem drop_columns_exists_map (rows : List (List String)) (target : List String) :
    ∃ f, drop_columns rows target = rows.map f := by
  match rows with
  | [] => exact ⟨id, rfl⟩
  | header :: rest =>
    rw [drop_columns]
    split
    · exact ⟨id, by simp⟩
    · exact ⟨pruneRow header target, rfl⟩

/-! ## Theorems for the claims about the normalizer -/

/-- C3 counterexample: `normalize_cell` is not idempotent.  On the input
`Image(a)(b)` the first pattern rewrites the leading `Image(a)` to the
placeholder, leaving `image(b)`; a second application matches the
placeholder together with the residual `(b)` (the pattern is
case-insensitive) and rewrites again, so applying the normalizer twice
differs from applying it once. -/
theorem normalize_cell_not_idempotent :
    normalize_cell "Image(a)(b)" = "image(b)" ∧
    normalize_cell (normalize_cell "Image(a)(b)") = "image" ∧
    normalize_cell (normalize_cell "Image(a)(b)") ≠ normalize_cell "Image(a)(b)" := by
  refine ⟨by decide, by decide, by decide⟩

/-- C3 (amended): the bare placeholder `image` is a fixed point of
`normalize_cell` (it matches none of the image patterns), and the
normalizer is idempotent on the spec's concrete scenario cell; but
idempotence does not hold for every input, because a substituted
placeholder can recombine with adjacent residual text into a fresh
match. -/
theorem normalize_cell_placeholder_fixed :
    normalize_cell "image" = "image" ∧
    normalize_cell (normalize_cell "[CQ:image,file=abc.png]") =
      normalize_cell "[CQ:image,file=abc.png]" := by
  refine ⟨by decide, by decide⟩

/-- C8 counterexample: for a table whose header repeats a dropped column
name, the number of remaining columns is not
`len(header) - card (drop_set ∩ header_names)`: with header
`[platform, platform]` both positions are dropped (0 columns remain),
while the set-intersection formula predicts 1. -/
theorem drop_columns_duplicate_header_mismatch :
    ((drop_columns [["platform", "platform"]] COLUMNS_TO_DROP).headD []).length = 0 ∧
    (["platform", "platform"] : List String).length -
      ((["platform", "platform"] : List String).toFinset ∩
        COLUMNS_TO_DROP.toFinset).card = 1 := by
  refine ⟨by decide, by decide⟩

/-- C8 (amended): for a table whose first row is a header with pairwise
distinct column names, `drop_columns` with the configured drop set
produces a header containing no name of the drop set, and the number of
remaining columns is the original header length minus the cardinality of
the intersection of the drop set with the header's names.  (Without the
distinctness assumption the count is the number of header positions
whose name is in the drop set, as the counterexample shows.) -/
theorem drop_columns_header_spec (header : List String) (rest : List (List String))
    (hnd : header.Nodup) :
    ∃ outHeader outRest,
      drop_columns (header :: rest) COLUMNS_TO_DROP = outHeader :: outRest ∧
      (∀ name ∈ outHeader, name ∉ COLUMNS_TO_DROP) ∧
      outHeader.length =
        header.length - (header.toFinset ∩ COLUMNS_TO_DROP.toFinset).card := by
  rw [drop_columns]
  split
  case isTrue hempty =>
    refine ⟨header, rest, rfl, ?_, ?_⟩
    · intro name hmem htgt
      obtain ⟨idx, hidx, hname⟩ := mem_header_getD header name hmem
      have : idx ∈ dropIndicesOf header COLUMNS_TO_DROP :=
        List.mem_filter.mpr ⟨List.mem_range.mpr hidx, by rw [hname]; exact decide_eq_true htgt⟩
      rw [hempty] at this
      exact absurd this (List.not_mem_nil idx)
    · have h0 : (dropIndicesOf header COLUMNS_TO_DROP).length = 0 := by
        rw [hempty]; rfl
      rw [dropIndicesOf_length] at h0
      rw [← filter_length_eq_inter_card header COLUMNS_TO_DROP hnd, h0, Nat.sub_zero]
  case isFalse hne =>
    refine ⟨pruneRow header COLUMNS_TO_DROP header,
      rest.map (pruneRow header COLUMNS_TO_DROP), rfl,
      pruneRow_header_not_mem header COLUMNS_TO_DROP, ?_⟩
    rw [pruneRow_header_length, dropIndicesOf_length,
      filter_length_eq_inter_card header COLUMNS_TO_DROP hnd]

/-- C8 witness: the theorem applied to the source's own header schema,
which has distinct names; `timestamp_iso`, `platform` and `session_id`
are dropped and five columns remain. -/
theorem drop_columns_header_spec_witness :
    ∃ outHeader outRest,
      drop_columns (["timestamp_iso", "platform", "session_id", "message_id",
        "group_id", "sender_id", "sender_name", "message_text"] :: [])
        COLUMNS_TO_DROP = outHeader :: outRest ∧
      (∀ name ∈ outHeader, name ∉ COLUMNS_TO_DROP) ∧
      outHeader.length =
        (["timestamp_iso", "platform", "session_id", "message_id",
          "group_id", "sender_id", "sender_name", "message_text"] : List String).length -
          ((["timestamp_iso", "platform", "session_id", "message_id",
            "group_id", "sender_id", "sender_name", "message_text"] : List String).toFinset ∩
            COLUMNS_TO_DROP.toFinset).card :=
  drop_columns_header_spec _ _ (by decide)

/-- C10: the normalizer neither adds nor removes rows.  `drop_columns`
returns exactly one output row per input row in order (it is a map over
the input rows), the full `normalize_csv` row transform does the same,
and empty input yields empty output. -/
theorem normalizer_row_count (rows : List (List String)) (target : List String) :
    (drop_columns rows target).length = rows.length ∧
    (∃ f, drop_columns rows target = rows.map f) ∧
    (normalize_csv_rows rows).length = rows.length ∧
    (∃ g, normalize_csv_rows rows = rows.map g) ∧
    normalize_csv_rows [] = [] := by
  refine ⟨drop_columns_length rows target, drop_columns_exists_map rows target, ?_, ?_, rfl⟩
  · rw [normalize_csv_rows, drop_columns_length, List.length_map]
  · obtain ⟨f, hf⟩ :=
      drop_columns_exists_map (rows.map (fun row => row.map normalize_cell)) COLUMNS_TO_DROP
    exact ⟨fun row => f (row.map normalize_cell), by
      rw [normalize_csv_rows, hf, List.map_map]; rfl⟩

/-! ## Theorems for the claims about main.py's pure helpers -/

theorem sanitize_component_chars (s : String) :
    ∀ c ∈ (_sanitize_component s).data, isWordChar c = true ∨ c = '.' ∨ c = '-' := by
  intro c hc
  by_cases hst : stripChars s.data = []
  · rw [_sanitize_component, if_pos hst] at hc
    exact absurd hc (by simp)
  · rw [_sanitize_component, if_neg hst] at hc
    have hc2 : c ∈ (stripChars s.data).map
        (fun a => if isWordChar a || a = '.' || a = '-' then a else '_') :=
      List.mem_of_mem_take hc
    obtain ⟨a, _, ha⟩ := List.mem_map.mp hc2
    by_cases hk : (isWordChar a || a = '.' || a = '-') = true
    · rw [if_pos hk] at ha
      subst ha
      exact or_assoc.mp (by simpa using hk)
    · rw [if_neg hk] at ha
      subst ha
      left; decide

/-- C9: the sanitizer's output always matches the shape the spec gives:
at most 100 characters, each a word character, dot or hyphen (so in
particular no path separator, forward or backward), and empty input maps
to the empty string. -/
theorem sanitize_component_spec (s : String) :
    (_sanitize_component s).data.length ≤ 100 ∧
    (∀ c ∈ (_sanitize_component s).data, isWordChar c = true ∨ c = '.' ∨ c = '-') ∧
    (∀ c ∈ (_sanitize_component s).data, c ≠ '/' ∧ c ≠ backslashChar) ∧
    _sanitize_component "" = "" := by
  refine ⟨?_, sanitize_component_chars s, ?_, rfl⟩
  · by_cases hst : stripChars s.data = []
    · rw [_sanitize_component, if_pos hst]
      decide
    · rw [_sanitize_component, if_neg hst]
      show (((stripChars s.data).map _).take 100).length ≤ 100
      rw [List.length_take]
      exact Nat.min_le_left _ _
  · intro c hc
    rcases sanitize_component_chars s c hc with h | h | h
    · constructor <;> rintro rfl <;> exact absurd h (by decide)
    · constructor <;> rintro rfl <;> exact absurd h (by decide)
    · constructor <;> rintro rfl <;> exact absurd h (by decide)

/-- C7 counterexample: on the group branch an empty sanitized result is
used directly as a path component.  The group id `" "` is truthy in
Python (so the group branch is taken) but sanitizes to the empty string,
and no `unknown_group` fallback exists in the code: the resulting path
contains the empty component, collapsing the per-group directory
level. -/
theorem resolve_path_empty_group_component :
    _resolve_csv_path " " "sess" "snd" = ["chatcsv", "groups", "", "chat_history.csv"] ∧
    "" ∈ _resolve_csv_path " " "sess" "snd" := by
  refine ⟨by decide, by decide⟩

theorem pyOr_ne_empty (a b : String) (hb : b ≠ "") : pyOr a b ≠ "" := by
  rw [pyOr]
  split
  · exact hb
  · assumption

/-- C7 (amended): only the private branch substitutes a fallback token.
For a falsy group id every component of the resolved path is non-empty,
and when both the session and the sender id sanitize to the empty string
the identifier component is the literal `private_unknown`; the group
branch has no such fallback, as the counterexample shows. -/
theorem resolve_path_private_fallback (g s d : String) (hg : g = "") :
    (∀ comp ∈ _resolve_csv_path g s d, comp ≠ "") ∧
    (_sanitize_component s = "" → _sanitize_component d = "" →
      _resolve_csv_path g s d =
        ["chatcsv", "privates", "private_unknown", "chat_history.csv"]) := by
  subst hg
  constructor
  · intro comp hcomp
    rw [_resolve_csv_path, if_neg (by decide)] at hcomp
    rcases hcomp with _ | ⟨_, _ | ⟨_, hcomp⟩⟩
    · decide
    · decide
    · rcases hcomp with _ | ⟨_, _ | ⟨_, hcomp⟩⟩
      · exact pyOr_ne_empty _ _ (by decide)
      · decide
      · exact absurd hcomp (List.not_mem_nil comp)
  · intro hs hd
    rw [_resolve_csv_path, if_neg (by decide)]
    simp [pyOr, hs, hd]

/-- C7 witness: the amended theorem at a private event whose session id
is whitespace (sanitizing to empty) and whose sender id is empty. -/
theorem resolve_path_private_fallback_witness :
    (∀ comp ∈ _resolve_csv_path "" " " "", comp ≠ "") ∧
    (_sanitize_component " " = "" → _sanitize_component "" = "" →
      _resolve_csv_path "" " " "" =
        ["chatcsv", "privates", "private_unknown", "chat_history.csv"]) :=
  resolve_path_private_fallback "" " " "" rfl

/-- C6 counterexample: `_to_iso` is not total.  For a numeric timestamp
far outside the representable datetime range (such as `10^20`, or the
first second of year 10000) the `float()` conversion succeeds, so the
`except (TypeError, ValueError)` fallback is not taken, and the
`datetime.fromtimestamp` call outside the `try` raises: the error
propagates out of `_to_iso` instead of falling back to "now". -/
theorem to_iso_raises_out_of_range :
    _to_iso (.num 100000000000000000000) 0 = none ∧
    _to_iso (.num (MAX_TS + 1)) 0 = none := by
  refine ⟨by decide, by decide⟩

/-- C6 (amended): `_to_iso` returns the ISO-8601 UTC rendering of "now"
for an absent or non-numeric timestamp, and of the timestamp itself for
a numeric timestamp within the representable datetime range; but for a
numeric timestamp outside that range the conversion error propagates,
so the function is not total. -/
theorem to_iso_behavior (now : Int) :
    _to_iso .pyNone now = some (isoOfTimestamp now) ∧
    _to_iso .nonNumeric now = some (isoOfTimestamp now) ∧
    (∀ i : Int, MIN_TS ≤ i → i ≤ MAX_TS → _to_iso (.num i) now = some (isoOfTimestamp i)) ∧
    (∀ i : Int, i < MIN_TS ∨ MAX_TS < i → _to_iso (.num i) now = none) := by
  refine ⟨rfl, rfl, ?_, ?_⟩
  · intro i h1 h2
    show fromtimestampIso i = some (isoOfTimestamp i)
    rw [fromtimestampIso, if_pos ⟨h1, h2⟩]
  · intro i h
    show fromtimestampIso i = none
    rw [fromtimestampIso, if_neg (by omega)]

/-- C5: the file-lock registry hands out one handle per path, forever.
In any sequence of atomic `_get_file_lock` calls (every interleaving of
concurrent callers is such a sequence), a later call for a path returns
the same lock as an earlier call for it regardless of interleaved calls
for other paths, the registry never holds more than one entry per path,
an entry once present survives any further calls unchanged, and a call
leaves the path registered with exactly the lock it returned. -/
theorem get_file_lock_unique (ps qs : List String) (p : String) :
    lockResult (runLockCalls initRegistry (ps ++ p :: qs)) p =
      lockResult (runLockCalls initRegistry ps) p ∧
    lockCount p (runLockCalls initRegistry (ps ++ p :: qs)) = 1 ∧
    (∀ l, lookupLock p (runLockCalls initRegistry ps).locks = some l →
      lookupLock p (runLockCalls initRegistry (ps ++ qs)).locks = some l) ∧
    lookupLock p ((_get_file_lock (runLockCalls initRegistry ps) p).2).locks =
      some (lockResult (runLockCalls initRegistry ps) p) := by
  have hsplit : runLockCalls initRegistry (ps ++ p :: qs) =
      runLockCalls ((_get_file_lock (runLockCalls initRegistry ps) p).2) qs := by
    rw [runLockCalls, List.foldl_append]
    rfl
  have hreg := get_file_lock_registers (runLockCalls initRegistry ps) p
  have hkept : lookupLock p (runLockCalls initRegistry (ps ++ p :: qs)).locks =
      some (lockResult (runLockCalls initRegistry ps) p) := by
    rw [hsplit]
    exact runLockCalls_keeps qs _ p _ hreg
  refine ⟨?_, ?_, ?_, hreg⟩
  · rw [lockResult, _get_file_lock, hkept]
  · have hle : lockCount p (runLockCalls initRegistry (ps ++ p :: qs)) ≤ 1 := by
      apply runLockCalls_count_le
      exact Nat.zero_le 1
    have hge : 1 ≤ lockCount p (runLockCalls initRegistry (ps ++ p :: qs)) :=
      lookupLock_some_countP p _ _ hkept
    omega
  · intro l hl
    rw [runLockCalls, List.foldl_append]
    exact runLockCalls_keeps qs _ p l hl

/-! ## Lemmas about the append step relation -/

theorem upd_self {n : Nat} (f : Fin n → Nat) (i : Fin n) (v : Nat) : upd f i v i = v := by
  simp [upd]

theorem upd_ne {n : Nat} (f : Fin n → Nat) (i j : Fin n) (v : Nat) (h : j ≠ i) :
    upd f i v j = f j := by
  simp [upd, h]

theorem invReady_init (n : Nat) (rowOf : Fin n → List String) :
    InvReady rowOf (initReady n) := by
  refine ⟨fun i => by simp [initReady], rfl, List.nodup_nil, fun i => ?_, fun i => ?_⟩
  · simp [initReady]
  · simp [initReady]

theorem invReady_step {n : Nat} (rowOf : Fin n → List String) (s : AppendState n)
    (i : Fin n) (h : InvReady rowOf s) : InvReady rowOf (step rowOf s i) := by
  by_cases h0 : s.pc i = 0
  · have hstep : step rowOf s i = { s with pc := upd s.pc i 2 } := by
      simp [step, h0, h.file_eq]
    rw [hstep]
    refine ⟨?_, h.file_eq, h.nodup, ?_, ?_⟩
    · intro j
      by_cases hj : j = i
      · subst hj; simp only [upd_self]; omega
      · simp only [upd_ne _ _ _ _ hj]; exact h.no_create j
    · intro j
      by_cases hj : j = i
      · subst hj; simp only [upd_self]
        constructor
        · intro hmem
          have := (h.mem_iff j).mp hmem
          omega
        · intro hle; omega
      · simp only [upd_ne _ _ _ _ hj]; exact h.mem_iff j
    · intro j
      by_cases hj : j = i
      · subst hj; simp only [upd_self]
        constructor
        · intro hor; omega
        · intro hlk
          have := (h.lock_iff j).mpr hlk
          omega
      · simp only [upd_ne _ _ _ _ hj]; exact h.lock_iff j
  · by_cases h1 : s.pc i = 1
    · exact absurd h1 (h.no_create i)
    · by_cases h2 : s.pc i = 2
      · cases hlock : s.lockHeld with
        | some j =>
          have hstep : step rowOf s i = s := by simp [step, h0, h1, h2, hlock]
          rw [hstep]; exact h
        | none =>
          have hstep : step rowOf s i =
              { s with lockHeld := some i, pc := upd s.pc i 3 } := by
            simp [step, h0, h1, h2, hlock]
          rw [hstep]
          refine ⟨?_, h.file_eq, h.nodup, ?_, ?_⟩
          · intro j
            by_cases hj : j = i
            · subst hj; simp only [upd_self]; omega
            · simp only [upd_ne _ _ _ _ hj]; exact h.no_create j
          · intro j
            by_cases hj : j = i
            · subst hj; simp only [upd_self]
              constructor
              · intro hmem
                have := (h.mem_iff j).mp hmem
                omega
              · intro hle; omega
            · simp only [upd_ne _ _ _ _ hj]; exact h.mem_iff j
          · intro j
            by_cases hj : j = i
            · subst hj; simp only [upd_self]
              simp
            · simp only [upd_ne _ _ _ _ hj]
              constructor
              · intro hor
                have := (h.lock_iff j).mp hor
                rw [hlock] at this
                exact absurd this (by simp)
              · intro hlk
                have : i = j := by
                  have := Option.some.inj hlk
                  exact this
                exact absurd this.symm hj
      · by_cases h3 : s.pc i = 3
        · have hlock : s.lockHeld = some i := (h.lock_iff i).mp (Or.inl h3)
          have hni : i ∉ s.written := by
            intro hmem
            have := (h.mem_iff i).mp hmem
            omega
          have hstep : step rowOf s i =
              { s with file := some ((s.file.getD []) ++ [rowOf i]),
                       written := s.written ++ [i],
                       pc := upd s.pc i 4 } := by
            simp [step, h0, h1, h2, h3]
          rw [hstep]
          refine ⟨?_, ?_, ?_, ?_, ?_⟩
          · intro j
            by_cases hj : j = i
            · subst hj; simp only [upd_self]; omega
            · simp only [upd_ne _ _ _ _ hj]; exact h.no_create j
          · show some ((s.file.getD []) ++ [rowOf i]) =
              some (csvHeaders :: (s.written ++ [i]).map rowOf)
            rw [h.file_eq]
            simp
          · show (s.written ++ [i]).Nodup
            rw [List.nodup_append]
            exact ⟨h.nodup, List.nodup_singleton i,
              fun a ha hb => hni ((List.mem_singleton.mp hb) ▸ ha)⟩
          · intro j
            by_cases hj : j = i
            · subst hj; simp only [upd_self]
              simp
            · simp only [upd_ne _ _ _ _ hj]
              constructor
              · intro hmem
                rcases List.mem_append.mp hmem with hm | hm
                · exact (h.mem_iff j).mp hm
                · exact absurd (by simpa using hm) hj
              · intro hle
                exact List.mem_append.mpr (Or.inl ((h.mem_iff j).mpr hle))
          · intro j
            by_cases hj : j = i
            · subst hj; simp only [upd_self]
              simp [hlock]
            · simp only [upd_ne _ _ _ _ hj]; exact h.lock_iff j
        · by_cases h4 : s.pc i = 4
          · have hlock : s.lockHeld = some i := (h.lock_iff i).mp (Or.inr h4)
            have hstep : step rowOf s i =
                { s with lockHeld := none, pc := upd s.pc i 5 } := by
              simp [step, h0, h1, h2, h3, h4]
            rw [hstep]
            refine ⟨?_, h.file_eq, h.nodup, ?_, ?_⟩
            · intro j
              by_cases hj : j = i
              · subst hj; simp only [upd_self]; omega
              · simp only [upd_ne _ _ _ _ hj]; exact h.no_create j
            · intro j
              by_cases hj : j = i
              · subst hj; simp only [upd_self]
                constructor
                · intro _; omega
                · intro _
                  exact (h.mem_iff j).mpr (by omega)
              · simp only [upd_ne _ _ _ _ hj]; exact h.mem_iff j
            · intro j
              by_cases hj : j = i
              · subst hj; simp only [upd_self]
                simp
              · simp only [upd_ne _ _ _ _ hj]
                constructor
                · intro hor
                  have := (h.lock_iff j).mp hor
                  rw [hlock] at this
                  exact absurd (Option.some.inj this).symm hj
                · intro hlk
                  exact absurd hlk (by simp)
          · have hstep : step rowOf s i = s := by
              simp [step, h0, h1, h2, h3, h4]
            rw [hstep]; exact h

theorem invReady_run {n : Nat} (rowOf : Fin n → List String) (tr : List (Fin n))
    (s : AppendState n) (h : InvReady rowOf s) : InvReady rowOf (run rowOf tr s) := by
  induction tr generalizing s with
  | nil => exact h
  | cons i rest ih => exact ih _ (invReady_step rowOf s i h)

theorem count_map_rowOf {n : Nat} (rowOf : Fin n → List String)
    (hinj : Function.Injective rowOf) (w : List (Fin n)) (i : Fin n) :
    (w.map rowOf).count (rowOf i) = w.count i := by
  induction w with
  | nil => rfl
  | cons a t ih =>
    have hbeq : (rowOf a == rowOf i) = (a == i) := by
      by_cases hai : a = i
      · subst hai; simp
      · have hne : rowOf a ≠ rowOf i := fun hc => hai (hinj hc)
        simp [hai, hne]
    rw [List.map_cons, List.count_cons, List.count_cons, ih, hbeq]

theorem count_eq_one_nodup {n : Nat} (w : List (Fin n)) (hnd : w.Nodup) (i : Fin n)
    (hm : i ∈ w) : w.count i = 1 := by
  induction w with
  | nil => exact absurd hm (by simp)
  | cons a t ih =>
    rw [List.count_cons]
    by_cases hai : a = i
    · subst hai
      have hnotin : a ∉ t := (List.nodup_cons.mp hnd).1
      rw [List.count_eq_zero.mpr hnotin]
      simp
    · have hmt : i ∈ t := by
        rcases List.mem_cons.mp hm with hc | hc
        · exact absurd hc.symm hai
        · exact hc
      rw [ih (List.nodup_cons.mp hnd).2 hmt]
      simp [hai]

/-! ## Theorems for the claims about the append path -/

/-- C1 counterexample: an interleaving of two appends to the same key on
a not-yet-existing file in which both appends complete, yet the final
file holds only 2 lines instead of 3 and task 0's row is gone.  Both
tasks pass the `os.path.exists` check while the file is absent; task 0
creates the file, appends its row and releases the lock; task 1's
deferred create-and-write-header (the `open(mode="w")` of
`_ensure_csv_ready`, which runs before `_append_row` ever takes the
lock) then truncates the file, erasing task 0's completed append. -/
theorem append_row_lost :
    (∀ i : Fin 2, (run rowsPair schedLost (initNone 2)).pc i = 5) ∧
    (run rowsPair schedLost (initNone 2)).file = some [csvHeaders, ["r1"]] ∧
    ((run rowsPair schedLost (initNone 2)).file.getD []).length = 2 ∧
    ["r0"] ∉ (run rowsPair schedLost (initNone 2)).file.getD [] := by
  refine ⟨by decide, by decide, by decide, by decide⟩

/-- C1 (amended): provided the target file already exists with its
header before the concurrent appends begin (`initReady`), the claim
holds in full: in every interleaving in which all `n` appends complete,
the file is exactly the header plus `n` data rows with each append's row
present exactly once, and in every interleaving at most one writer is in
the critical section at any time.  (Starting from a non-existing file
the guarantee fails, as the counterexample shows.) -/
theorem append_engine_no_loss (n : Nat) (rowOf : Fin n → List String)
    (hinj : Function.Injective rowOf) (tr : List (Fin n))
    (hdone : ∀ i, (run rowOf tr (initReady n)).pc i = 5) :
    appendOutcome rowOf (run rowOf tr (initReady n)) ∧
    ∀ tr2 : List (Fin n), ∀ i j : Fin n,
      inCriticalSection (run rowOf tr2 (initReady n)) i →
      inCriticalSection (run rowOf tr2 (initReady n)) j → i = j := by
  constructor
  · have h := invReady_run rowOf tr (initReady n) (invReady_init n rowOf)
    have hall : ∀ i, i ∈ (run rowOf tr (initReady n)).written := fun i =>
      (h.mem_iff i).mpr (by rw [hdone i]; omega)
    have huniv : (run rowOf tr (initReady n)).written.toFinset = Finset.univ :=
      Finset.eq_univ_iff_forall.mpr (fun i => List.mem_toFinset.mpr (hall i))
    have hlen : (run rowOf tr (initReady n)).written.length = n := by
      have hc := List.toFinset_card_of_nodup h.nodup
      rw [huniv] at hc
      simpa [Finset.card_univ] using hc.symm
    refine ⟨(run rowOf tr (initReady n)).written.map rowOf, h.file_eq, ?_, ?_⟩
    · rw [List.length_map, hlen]
    · intro i
      rw [count_map_rowOf rowOf hinj _ i]
      exact count_eq_one_nodup _ h.nodup i (hall i)
  · intro tr2 i j hi hj
    have h2 := invReady_run rowOf tr2 (initReady n) (invReady_init n rowOf)
    have hsi := (h2.lock_iff i).mp hi
    have hsj := (h2.lock_iff j).mp hj
    rw [hsi] at hsj
    exact Option.some.inj hsj

/-- C1 witness: two appends with distinct rows on an existing file,
fully serialized; both complete and the outcome and mutual-exclusion
conclusions hold. -/
theorem append_engine_no_loss_witness :
    appendOutcome rowsPair (run rowsPair schedPair (initReady 2)) ∧
    ∀ tr2 : List (Fin 2), ∀ i j : Fin 2,
      inCriticalSection (run rowsPair tr2 (initReady 2)) i →
      inCriticalSection (run rowsPair tr2 (initReady 2)) j → i = j :=
  append_engine_no_loss 2 rowsPair (by decide) schedPair (by decide)

/-- In the coarse model, too, the header-existence check and the header
creation do not occur inside the per-file lock-acquisition boundary:
from the initial state the first scheduled step of task 0 executes the
existence check, and the second executes the create-and-write-header,
both while `lockHeld` is `none` — the lock is only acquired afterwards,
inside `_append_row`. -/
theorem header_check_outside_lock :
    (initNone 1).pc 0 = 0 ∧
    (initNone 1).lockHeld = none ∧
    (step rowsOne (initNone 1) 0).pc 0 = 1 ∧
    (step rowsOne (initNone 1) 0).lockHeld = none ∧
    (step rowsOne (step rowsOne (initNone 1) 0) 0).pc 0 = 2 ∧
    (step rowsOne (step rowsOne (initNone 1) 0) 0).lockHeld = none ∧
    (step rowsOne (step rowsOne (initNone 1) 0) 0).file = some [csvHeaders] := by
  refine ⟨by decide, by decide, by decide, by decide, by decide, by decide, by decide⟩

/-- C2 counterexample, on the refined model: the header check and
creation are not inside the lock-acquisition boundary, and as a
consequence a data row can reach the target file before the header.
After the racing schedule, task 1's append has fully completed under the
per-path lock (its program counter is 6 and the lock is free again), yet
the file on disk holds exactly task 1's data row and no header: task 0,
which never held the lock during its check and its truncating open, is
still at the flush step, its header line still buffered.  The file
exists, does not begin with the header row, and contains no header line
at all. -/
theorem data_row_before_header :
    (frun rowsPair fSchedRace (fInitNone 2)).file = some [["r1"]] ∧
    ["r1"] ∈ ((frun rowsPair fSchedRace (fInitNone 2)).file.getD []) ∧
    csvHeaders ∉ ((frun rowsPair fSchedRace (fInitNone 2)).file.getD []) ∧
    ((frun rowsPair fSchedRace (fInitNone 2)).file.getD []).headD [] ≠ csvHeaders ∧
    (frun rowsPair fSchedRace (fInitNone 2)).pc 0 = 2 ∧
    (frun rowsPair fSchedRace (fInitNone 2)).pc 1 = 6 ∧
    (frun rowsPair fSchedRace (fInitNone 2)).lockHeld = none := by
  refine ⟨by decide, by decide, by decide, by decide, by decide, by decide, by decide⟩

theorem frun_first_append {n : Nat} (rowOf : Fin n → List String) (i : Fin n) :
    (frun rowOf (List.replicate 3 i) (fInitNone n)).file = some [csvHeaders] ∧
    (frun rowOf (List.replicate 6 i) (fInitNone n)).file = some [csvHeaders, rowOf i] := by
  constructor
  · show (fstep rowOf (fstep rowOf (fstep rowOf (fInitNone n) i) i) i).file = some [csvHeaders]
    simp [fstep, fInitNone, flushHeader, upd]
  · show (fstep rowOf (fstep rowOf (fstep rowOf (fstep rowOf (fstep rowOf
      (fstep rowOf (fInitNone n) i) i) i) i) i) i).file = some [csvHeaders, rowOf i]
    simp [fstep, fInitNone, flushHeader, upd]

theorem frun_next_append {n : Nat} (rowOf : Fin n → List String) (i : Fin n)
    (s : FState n) (rows : List (List String))
    (hfile : s.file = some (csvHeaders :: rows)) (hlock : s.lockHeld = none)
    (hpc : s.pc i = 0) :
    (frun rowOf (List.replicate 6 i) s).file = some (csvHeaders :: (rows ++ [rowOf i])) := by
  show (fstep rowOf (fstep rowOf (fstep rowOf (fstep rowOf (fstep rowOf
    (fstep rowOf s i) i) i) i) i) i).file = some (csvHeaders :: (rows ++ [rowOf i]))
  simp [fstep, hfile, hlock, hpc, upd]

/-- C2 (amended): the header check and creation run before — not
inside — the lock-acquisition boundary of the append, and because the
truncating open and the buffered header flush are separate events, a
concurrent data row can reach the headerless file before the header (the
counterexample).  The header-before-data guarantee holds for serialized
appends: for each task the header flush precedes its row in program
order — after the creation phase the file holds exactly the header and
no data row yet, and after the full first append it is the header
followed by that row — and every later append that starts from a
header-fronted file with the lock free appends exactly its own row,
never a second header, so a file built by serial appends always begins
with exactly one header row. -/
theorem header_first_serialized (n : Nat) (rowOf : Fin n → List String)
    (hrow : ∀ i, rowOf i ≠ csvHeaders) :
    (∀ i : Fin n,
      (frun rowOf (List.replicate 3 i) (fInitNone n)).file = some [csvHeaders] ∧
      (frun rowOf (List.replicate 6 i) (fInitNone n)).file = some [csvHeaders, rowOf i] ∧
      ([csvHeaders, rowOf i] : List (List String)).count csvHeaders = 1) ∧
    (∀ (i : Fin n) (s : FState n) (rows : List (List String)),
      s.file = some (csvHeaders :: rows) → s.lockHeld = none → s.pc i = 0 →
      (frun rowOf (List.replicate 6 i) s).file =
        some (csvHeaders :: (rows ++ [rowOf i])) ∧
      (rows.count csvHeaders = 0 →
        (csvHeaders :: (rows ++ [rowOf i])).count csvHeaders = 1)) := by
  constructor
  · intro i
    refine ⟨(frun_first_append rowOf i).1, (frun_first_append rowOf i).2, ?_⟩
    have h0 : ([rowOf i] : List (List String)).count csvHeaders = 0 :=
      List.count_eq_zero.mpr (by simpa using Ne.symm (hrow i))
    rw [show ([csvHeaders, rowOf i] : List (List String)) = csvHeaders :: [rowOf i] from rfl,
      List.count_cons_self, h0]
  · intro i s rows hfile hlock hpc
    refine ⟨frun_next_append rowOf i s rows hfile hlock hpc, ?_⟩
    intro hzero
    have hone : ([rowOf i] : List (List String)).count csvHeaders = 0 :=
      List.count_eq_zero.mpr (by simpa using Ne.symm (hrow i))
    rw [List.count_cons_self, List.count_append, hzero, hone]

/-- C2 witness: the serialized guarantee at one task whose row differs
from the header. -/
theorem header_first_serialized_witness :
    (∀ i : Fin 1,
      (frun rowsOne (List.replicate 3 i) (fInitNone 1)).file = some [csvHeaders] ∧
      (frun rowsOne (List.replicate 6 i) (fInitNone 1)).file = some [csvHeaders, rowsOne i] ∧
      ([csvHeaders, rowsOne i] : List (List String)).count csvHeaders = 1) ∧
    (∀ (i : Fin 1) (s : FState 1) (rows : List (List String)),
      s.file = some (csvHeaders :: rows) → s.lockHeld = none → s.pc i = 0 →
      (frun rowsOne (List.replicate 6 i) s).file =
        some (csvHeaders :: (rows ++ [rowsOne i])) ∧
      (rows.count csvHeaders = 0 →
        (csvHeaders :: (rows ++ [rowsOne i])).count csvHeaders = 1)) :=
  header_first_serialized 1 rowsOne (by decide)

/-! ## Theorems for the Archive Coordinator claim -/

theorem coordTrig_stable (K : Nat) (b : Nat) :
    List.foldl coordStep ⟨true, true, b⟩ (List.replicate K .trigger) = ⟨true, true, b⟩ := by
  induction K with
  | zero => rfl
  | succ k ih =>
    rw [List.replicate_succ, List.foldl_cons]
    exact ih

theorem coordFin_stable (K : Nat) (p : Bool) (b : Nat) :
    List.foldl coordStep ⟨p, false, b⟩ (List.replicate K .finish) = ⟨p, false, b⟩ := by
  induction K with
  | zero => rfl
  | succ k ih =>
    rw [List.replicate_succ, List.foldl_cons]
    exact ih

theorem coord_after_triggers (M : Nat) :
    List.foldl coordStep inFlight (List.replicate M .trigger) =
      if M = 0 then inFlight else ⟨true, true, 0⟩ := by
  cases M with
  | zero => rfl
  | succ k =>
    rw [if_neg (Nat.succ_ne_zero k), List.replicate_succ, List.foldl_cons]
    exact coordTrig_stable k 0

/-- C4: debounce with trailing coalescing.  Triggering `request_archive`
`M` times while a build is in flight results in at most 2 completed
builds — the in-flight one plus at most one coalesced follow-up — never
`M` builds; and once the builder has run through at least two completion
steps, the coordinator is quiescent with no pending trigger lost: the
pending flag is clear, the lock released, and exactly one follow-up
build happened whenever at least one trigger arrived (none when `M` is
zero). -/
theorem request_archive_coalesce (M j : Nat) :
    (coordRun M j).builds ≤ 2 ∧
    (2 ≤ j → (coordRun M j).pending = false ∧ (coordRun M j).building = false ∧
      (coordRun M j).builds = if M = 0 then 1 else 2) := by
  have hrun : coordRun M j = List.foldl coordStep
      (List.foldl coordStep inFlight (List.replicate M .trigger))
      (List.replicate j .finish) := by
    rw [coordRun, runCoord, List.foldl_append]
  rw [hrun, coord_after_triggers M]
  cases M with
  | zero =>
    rw [if_pos rfl]
    cases j with
    | zero => exact ⟨by decide, fun hj => absurd hj (by omega)⟩
    | succ k =>
      rw [List.replicate_succ, List.foldl_cons]
      have hst : List.foldl coordStep (coordStep inFlight .finish)
          (List.replicate k .finish) = ⟨false, false, 1⟩ := coordFin_stable k false 1
      rw [hst]
      exact ⟨by decide, fun _ => ⟨rfl, rfl, by simp⟩⟩
  | succ m =>
    rw [if_neg (Nat.succ_ne_zero m)]
    cases j with
    | zero => exact ⟨by decide, fun hj => absurd hj (by omega)⟩
    | succ k =>
      rw [List.replicate_succ, List.foldl_cons]
      cases k with
      | zero => exact ⟨by decide, fun hj => absurd hj (by omega)⟩
      | succ k2 =>
        rw [List.replicate_succ, List.foldl_cons]
        have hst : List.foldl coordStep
            (coordStep (coordStep ⟨true, true, 0⟩ .finish) .finish)
            (List.replicate k2 .finish) = ⟨false, false, 2⟩ := coordFin_stable k2 false 2
        rw [hst]
        exact ⟨by decide, fun _ => ⟨rfl, rfl, by simp⟩⟩

end ChatCSV
